import Mathlib

/-!
Verification of the PTLib thread lifecycle and thread-local-storage (TLS)
subsystem (`src/include/ptlib/ipdsock.h`, class `PThread` and
`PThread::LocalStorageBase` / `PThreadLocalStorage`).

The header in the repository declares the operations and documents their
contracts; the platform-dependent implementations are not part of the
repository sources.  The definitions below therefore embed the documented
contracts of the header together with the design description of `spec.md`
(sections 3, 4 and 8): the suspend-counter arithmetic of
`PThread::Suspend`/`Resume`/`IsSuspended`, the lifecycle state machine, the
`WaitForTermination` boolean result, and the dual-registration bookkeeping
between a storage descriptor (`LocalStorageBase::m_storage`) and a thread's
backward set (`PThread::m_localStorage`).
-/

namespace PTLib

/-! ## Thread lifecycle model -/

/-- Lifecycle states of a `PThread`: `Created` (constructed, never yet run),
`Running`, `Suspended`, `Terminated`. -/
inductive LifeState where
  | Created
  | Running
  | Suspended
  | Terminated
deriving DecidableEq, Repr

/-- The lifecycle-relevant part of a `PThread` control block: the signed
suspend counter (incremented by `Suspend(true)`, decremented by `Resume`)
and the lifecycle state. -/
structure ThreadA where
  state : LifeState
  suspendCount : Int
deriving DecidableEq, Repr

/-- Operations on a thread control block that affect its lifecycle. -/
inductive ThreadOp where
  | suspendOp
  | resumeOp
  | terminateOp
  | restartOp
deriving DecidableEq, Repr

/-- Modelled from the spec: the `PThread` constructor body is not in the
repository sources.  Per the header documentation ("a thread is always
started suspended") and spec section 4.1, `create` yields a block in state
`Created` with suspend counter 1. -/
def createThread : ThreadA := { state := LifeState.Created, suspendCount := 1 }

/-- Modelled from the spec: the bodies of `PThread::Suspend`, `Resume`,
`Terminate` and `Restart` are not in the repository sources.  Per the header
documentation: `Suspend(true)` increments the suspension count and
`Suspend(false)`/`Resume()` decrements it; the thread runs iff the count
is at most 0 (`IsSuspended` returns true iff the count is greater than 0);
`Terminate` moves the thread to `Terminated`; `Restart` restarts a
terminated thread (re-creating it, so it starts suspended again) and is
ignored if the thread is not terminated.  Operating on a terminated block
with suspend/resume is an `InvalidState` error per spec section 7, modelled
as leaving the block unchanged. -/
def threadStep (th : ThreadA) (op : ThreadOp) : ThreadA :=
  match op with
  | ThreadOp.terminateOp => { th with state := LifeState.Terminated }
  | ThreadOp.restartOp =>
      if th.state = LifeState.Terminated then createThread else th
  | ThreadOp.suspendOp =>
      if th.state = LifeState.Terminated then th
      else
        let c := th.suspendCount + 1
        { state :=
            if 0 < c then
              (if th.state = LifeState.Created then LifeState.Created
               else LifeState.Suspended)
            else LifeState.Running,
          suspendCount := c }
  | ThreadOp.resumeOp =>
      if th.state = LifeState.Terminated then th
      else
        let c := th.suspendCount - 1
        { state :=
            if 0 < c then
              (if th.state = LifeState.Created then LifeState.Created
               else LifeState.Suspended)
            else LifeState.Running,
          suspendCount := c }

/-- A thread is running when its lifecycle state is `Running`. -/
def isRunning (th : ThreadA) : Bool := th.state = LifeState.Running

/-- Embedding of `PThread::IsSuspended` per the header documentation: checks
the suspension count and returns true iff it is greater than zero. -/
def isSuspended (th : ThreadA) : Bool := 0 < th.suspendCount

/-- Apply a sequence of suspend (`true`) / resume (`false`) calls. -/
def applySuspendOps (th : ThreadA) (ops : List Bool) : ThreadA :=
  ops.foldl
    (fun th b => threadStep th (if b then ThreadOp.suspendOp else ThreadOp.resumeOp))
    th

/-- Modelled from the spec: the body of `PThread::WaitForTermination` is not
in the repository sources.  Per the header documentation and spec sections
4.1 and 7 it blocks until the state becomes `Terminated` or the timeout
elapses and returns a boolean, never an error.  `terminationTime` is the
instant the target thread terminates (`none` when it never terminates
within any window). -/
def waitForTermination (terminationTime : Option Nat) (maxWait : Nat) : Bool :=
  match terminationTime with
  | some t => decide (t ≤ maxWait)
  | none => false

/-- Embedding of `~PThread` per the header documentation: destroying the
thread "simply calls the `Terminate()` function". -/
def pthreadDestructor (th : ThreadA) : ThreadA := threadStep th ThreadOp.terminateOp

/-! ## Thread-local storage model

Threads, storage descriptors and payloads are identified by numbers; the
C++ pointer-keyed `std::map` becomes an association list with unique keys,
and a thread's `m_localStorage` list of descriptors becomes a list of
descriptor identifiers.  Deallocated payloads are recorded in `freed` so
that deallocation counts are observable. -/

/-- Identifier of a thread control block (stands for a `PThread *`). -/
abbrev ThreadId := Nat

/-- Identifier of a storage descriptor (stands for a `LocalStorageBase *`). -/
abbrev DescId := Nat

/-- An opaque per-thread payload (stands for the `void *` slot value). -/
abbrev Payload := Nat

/-- Lookup in an association list, returning the first binding of the key. -/
def lookupA {α : Type} (k : Nat) : List (Nat × α) → Option α
  | [] => none
  | (k', v) :: rest => if k' = k then some v else lookupA k rest

/-- Overwrite the first binding of a key, or append a fresh binding. -/
def setA {α : Type} (k : Nat) (v : α) : List (Nat × α) → List (Nat × α)
  | [] => [(k, v)]
  | (k', v') :: rest => if k' = k then (k, v) :: rest else (k', v') :: setA k v rest

/-- Remove every binding of a key from an association list. -/
def eraseA {α : Type} (k : Nat) (l : List (Nat × α)) : List (Nat × α) :=
  l.filter (fun e => e.1 != k)

/-- Global state of the TLS subsystem: the live storage descriptors with
their `m_storage` maps (thread block to payload), the live thread control
blocks with their backward sets (`m_localStorage`), the multiset of
deallocated payloads, and the allocator's next fresh payload. -/
structure TLSState where
  descMap : List (DescId × List (ThreadId × Payload))
  backSet : List (ThreadId × List DescId)
  freed : List Payload
  nextPayload : Payload
deriving DecidableEq, Repr

/-- Modelled from the spec: the body of
`PThread::LocalStorageBase::ThreadDestroyed` (`detachThread`) is not in the
repository sources.  Per spec section 4.2 it removes the mapping entry for
the thread under the guard and deallocates the removed payload; if there is
no entry it is a no-op. -/
def detachThread (d : DescId) (t : ThreadId) (s : TLSState) : TLSState :=
  match lookupA d s.descMap with
  | none => s
  | some m =>
      match lookupA t m with
      | none => s
      | some p =>
          { s with descMap := setA d (eraseA t m) s.descMap
                 , freed := p :: s.freed }

/-- Modelled from the spec: the body of
`PThread::LocalStorageBase::GetStorage` (`getOrCreate`, reached through
`PThreadLocalStorage::Get`) is not in the repository sources.  Per spec
sections 4.2 and 4.3: look up the calling thread in the descriptor's map;
if present return its payload; otherwise allocate a fresh payload
(`Allocate()`, a default-constructed value), insert it, and add the
descriptor to the thread's backward set (registering the thread lazily if
it has no block yet, per section 4.4).  Returns `none` only if the
descriptor itself is not live. -/
def getOrCreate (d : DescId) (t : ThreadId) (s : TLSState) :
    Option (Payload × TLSState) :=
  match lookupA d s.descMap with
  | none => none
  | some m =>
      match lookupA t m with
      | some p => some (p, s)
      | none =>
          let p := s.nextPayload
          let bs := (lookupA t s.backSet).getD []
          some (p, { descMap := setA d (setA t p m) s.descMap
                   , backSet := setA t (d :: bs) s.backSet
                   , freed := s.freed
                   , nextPayload := p + 1 })

/-- Backward set of one thread after descriptor `d`'s destruction: `d` is
removed when the thread held an entry in the descriptor's map `m`. -/
def pruneBS (d : DescId) (m : List (ThreadId × Payload)) (t : ThreadId)
    (bs : List DescId) : List DescId :=
  if (lookupA t m).isSome then bs.filter (fun x => x != d) else bs

/-- Remove descriptor `d` from the backward set of every thread that holds
an entry in map `m` (the notification loop of descriptor destruction). -/
def removeFromBackSets (d : DescId) (m : List (ThreadId × Payload))
    (bsl : List (ThreadId × List DescId)) : List (ThreadId × List DescId) :=
  bsl.map (fun e => (e.1, pruneBS d m e.1 e.2))

/-- Modelled from the spec: the body of
`PThread::LocalStorageBase::StorageDestroyed` (called from
`~PThreadLocalStorage`) is not in the repository sources.  Per spec
sections 3 and 4.2: for every remaining thread entry, remove this
descriptor from that thread's backward set and deallocate the payload,
then drop the descriptor itself. -/
def storageDestroyed (d : DescId) (s : TLSState) : TLSState :=
  match lookupA d s.descMap with
  | none => s
  | some m =>
      { descMap := eraseA d s.descMap
      , backSet := removeFromBackSets d m s.backSet
      , freed := m.map Prod.snd ++ s.freed
      , nextPayload := s.nextPayload }

/-- Call `detachThread` on thread `t` for every descriptor in `ds`. -/
def detachAll (t : ThreadId) (ds : List DescId) (s : TLSState) : TLSState :=
  ds.foldl (fun s d => detachThread d t s) s

/-- Modelled from the spec: `notifyTerminated` (the cleanup walk over
`PThread::m_localStorage` on thread termination) is not in the repository
sources.  Per spec section 4.1: iterate the backward set calling
`detachThread` for each descriptor still present, then clear the backward
set and remove the thread from the identity registry (here both are the
removal of the thread's `backSet` entry). -/
def threadTerminated (t : ThreadId) (s : TLSState) : TLSState :=
  let s1 := detachAll t ((lookupA t s.backSet).getD []) s
  { s1 with backSet := eraseA t s1.backSet }

/-- Creation of a storage descriptor (construction of a
`PThreadLocalStorage` handle): a live descriptor with an empty map.
Descriptor identifiers are object addresses, so a live identifier is never
created a second time; re-creating an existing identifier is a no-op. -/
def newDescriptor (d : DescId) (s : TLSState) : TLSState :=
  if (lookupA d s.descMap).isSome then s
  else { s with descMap := (d, []) :: s.descMap }

/-- Creation (registration) of a thread control block with an empty
backward set; registering an already-registered identifier is a no-op. -/
def newThreadBlock (t : ThreadId) (s : TLSState) : TLSState :=
  if (lookupA t s.backSet).isSome then s
  else { s with backSet := (t, []) :: s.backSet }

/-- The operations of spec section 4 that mutate the TLS bookkeeping:
thread registration, descriptor construction, `get()` access, descriptor
destruction, and thread termination. -/
inductive TLSOp where
  | newDesc (d : DescId)
  | newThread (t : ThreadId)
  | access (d : DescId) (t : ThreadId)
  | destroyDesc (d : DescId)
  | termThread (t : ThreadId)
deriving DecidableEq, Repr

/-- One step of the TLS subsystem. -/
def tlsStep (s : TLSState) : TLSOp → TLSState
  | TLSOp.newDesc d => newDescriptor d s
  | TLSOp.newThread t => newThreadBlock t s
  | TLSOp.access d t =>
      match getOrCreate d t s with
      | some (_, s') => s'
      | none => s
  | TLSOp.destroyDesc d => storageDestroyed d s
  | TLSOp.termThread t => threadTerminated t s

/-- Thread `t`'s backward set is live and contains descriptor `d`. -/
def descInBackSet (s : TLSState) (t : ThreadId) (d : DescId) : Bool :=
  match lookupA t s.backSet with
  | some bs => bs.contains d
  | none => false

/-- Descriptor `d` is live and its map has an entry for thread `t`. -/
def threadInDescMap (s : TLSState) (d : DescId) (t : ThreadId) : Bool :=
  match lookupA d s.descMap with
  | some m => (lookupA t m).isSome
  | none => false

/-- Keys of an association list are pairwise distinct. -/
def keysNodup {α : Type} (l : List (Nat × α)) : Prop := (l.map Prod.fst).Nodup

/-- Well-formedness of the TLS state: descriptor and thread identifiers are
unique, each descriptor map has unique thread keys, and each backward set
is duplicate-free (the C++ `std::map` and set semantics). -/
def NodupState (s : TLSState) : Prop :=
  keysNodup s.descMap ∧ keysNodup s.backSet ∧
    (∀ e ∈ s.descMap, keysNodup e.2) ∧ (∀ e ∈ s.backSet, e.2.Nodup)

/-- The bidirectional consistency invariant of spec section 3: every thread
entry in a storage descriptor's map belongs to a live thread whose backward
set contains the descriptor, and every descriptor in a thread's backward
set is live and holds a map entry for that thread; together with
well-formedness of the underlying maps. -/
def Inv (s : TLSState) : Prop :=
  NodupState s ∧
    (∀ e ∈ s.descMap, ∀ tp ∈ e.2, descInBackSet s tp.1 e.1 = true) ∧
    (∀ e ∈ s.backSet, ∀ d ∈ e.2, threadInDescMap s d e.1 = true)

/-- A small concrete TLS state for witnesses: descriptor 0 holds payloads
for threads 1 and 2, descriptor 3 holds a payload for thread 1, and the
backward sets mirror that. -/
def sampleState : TLSState :=
  { descMap := [(0, [(1, 10), (2, 11)]), (3, [(1, 12)])]
  , backSet := [(1, [0, 3]), (2, [0])]
  , freed := []
  , nextPayload := 13 }

/-- A concrete TLS state with one live descriptor that has no entry yet for
any thread. -/
def emptySlotState : TLSState :=
  { descMap := [(0, [])], backSet := [], freed := [], nextPayload := 0 }

theorem applySuspendOps_nil (th : ThreadA) : applySuspendOps th [] = th := rfl

theorem applySuspendOps_cons (th : ThreadA) (b : Bool) (ops : List Bool) :
    applySuspendOps th (b :: ops) =
      applySuspendOps
        (threadStep th (if b then ThreadOp.suspendOp else ThreadOp.resumeOp)) ops := rfl

/-- Auxiliary invariant for the suspend/resume fold: a never-terminated
thread stays unterminated, is running exactly when its counter is at most 0,
and its counter moves by plus one per suspend and minus one per resume. -/
theorem applySuspendOps_invariant (ops : List Bool) (th : ThreadA)
    (hterm : th.state ≠ LifeState.Terminated)
    (hrun : isRunning th = true ↔ th.suspendCount ≤ 0) :
    (applySuspendOps th ops).state ≠ LifeState.Terminated ∧
      (isRunning (applySuspendOps th ops) = true ↔
        (applySuspendOps th ops).suspendCount ≤ 0) ∧
      (applySuspendOps th ops).suspendCount =
        th.suspendCount + (ops.count true : Int) - (ops.count false : Int) := by
  induction ops generalizing th with
  | nil =>
      simpa [applySuspendOps] using ⟨hterm, hrun⟩
  | cons b rest ih =>
      rw [applySuspendOps_cons]
      cases b with
      | true =>
          have hstep :
              threadStep th ThreadOp.suspendOp =
                { state :=
                    if 0 < th.suspendCount + 1 then
                      (if th.state = LifeState.Created then LifeState.Created
                       else LifeState.Suspended)
                    else LifeState.Running,
                  suspendCount := th.suspendCount + 1 } := by
            simp [threadStep, hterm]
          have h1 : (threadStep th ThreadOp.suspendOp).state ≠ LifeState.Terminated := by
            rw [hstep]
            by_cases hc : 0 < th.suspendCount + 1 <;>
              by_cases hcr : th.state = LifeState.Created <;> simp [hc, hcr]
          have h2 : isRunning (threadStep th ThreadOp.suspendOp) = true ↔
              (threadStep th ThreadOp.suspendOp).suspendCount ≤ 0 := by
            rw [hstep]
            by_cases hc : 0 < th.suspendCount + 1 <;>
              by_cases hcr : th.state = LifeState.Created <;>
                simp [isRunning, hc, hcr] <;> omega
          obtain ⟨g1, g2, g3⟩ := ih (threadStep th ThreadOp.suspendOp) h1 h2
          refine ⟨g1, g2, ?_⟩
          show (applySuspendOps (threadStep th ThreadOp.suspendOp) rest).suspendCount = _
          rw [g3, hstep]
          simp [List.count_cons]
          omega
      | false =>
          have hstep :
              threadStep th ThreadOp.resumeOp =
                { state :=
                    if 0 < th.suspendCount - 1 then
                      (if th.state = LifeState.Created then LifeState.Created
                       else LifeState.Suspended)
                    else LifeState.Running,
                  suspendCount := th.suspendCount - 1 } := by
            simp [threadStep, hterm]
          have h1 : (threadStep th ThreadOp.resumeOp).state ≠ LifeState.Terminated := by
            rw [hstep]
            by_cases hc : 0 < th.suspendCount - 1 <;>
              by_cases hcr : th.state = LifeState.Created <;> simp [hc, hcr]
          have h2 : isRunning (threadStep th ThreadOp.resumeOp) = true ↔
              (threadStep th ThreadOp.resumeOp).suspendCount ≤ 0 := by
            rw [hstep]
            by_cases hc : 0 < th.suspendCount - 1 <;>
              by_cases hcr : th.state = LifeState.Created <;>
                simp [isRunning, hc, hcr] <;> omega
          obtain ⟨g1, g2, g3⟩ := ih (threadStep th ThreadOp.resumeOp) h1 h2
          refine ⟨g1, g2, ?_⟩
          show (applySuspendOps (threadStep th ThreadOp.resumeOp) rest).suspendCount = _
          rw [g3, hstep]
          simp [List.count_cons]
          omega

/-! ### Association list lemmas -/

theorem lookupA_setA_self {α : Type} (k : Nat) (v : α) (l : List (Nat × α)) :
    lookupA k (setA k v l) = some v := by
  induction l with
  | nil => simp [setA, lookupA]
  | cons e rest ih =>
      obtain ⟨k', v'⟩ := e
      by_cases h : k' = k
      · subst h; simp [setA, lookupA]
      · simp [setA, lookupA, h, ih]

theorem lookupA_setA_ne {α : Type} {k k' : Nat} (h : k ≠ k') (v : α)
    (l : List (Nat × α)) : lookupA k (setA k' v l) = lookupA k l := by
  induction l with
  | nil => simp [setA, lookupA, Ne.symm h]
  | cons e rest ih =>
      obtain ⟨k₀, v₀⟩ := e
      by_cases h0 : k₀ = k'
      · subst h0
        simp [setA, lookupA, Ne.symm h]
      · simp [setA, lookupA, h0, ih]

theorem lookupA_none_iff {α : Type} (k : Nat) (l : List (Nat × α)) :
    lookupA k l = none ↔ k ∉ l.map Prod.fst := by
  induction l with
  | nil => simp [lookupA]
  | cons e rest ih =>
      obtain ⟨k₀, v₀⟩ := e
      by_cases h : k₀ = k
      · subst h; simp [lookupA]
      · simp [lookupA, h, Ne.symm h, ih]

theorem lookupA_mem {α : Type} {k : Nat} {v : α} {l : List (Nat × α)}
    (h : lookupA k l = some v) : (k, v) ∈ l := by
  induction l with
  | nil => simp [lookupA] at h
  | cons e rest ih =>
      obtain ⟨k₀, v₀⟩ := e
      by_cases h0 : k₀ = k
      · subst h0
        simp [lookupA] at h
        subst h
        exact List.mem_cons_self _ _
      · simp [lookupA, h0] at h
        exact List.mem_cons_of_mem _ (ih h)

theorem mem_lookupA {α : Type} {k : Nat} {v : α} {l : List (Nat × α)}
    (hmem : (k, v) ∈ l) (hnd : keysNodup l) : lookupA k l = some v := by
  induction l with
  | nil => simp at hmem
  | cons e rest ih =>
      obtain ⟨k₀, v₀⟩ := e
      have hnd' : k₀ ∉ rest.map Prod.fst ∧ keysNodup rest := by
        simpa [keysNodup, List.nodup_cons] using hnd
      rcases List.mem_cons.mp hmem with h | h
      · injection h with h1 h2
        subst h1; subst h2
        simp [lookupA]
      · have hk : k₀ ≠ k := by
          intro hh
          subst hh
          exact hnd'.1 (List.mem_map.mpr ⟨(k₀, v), h, rfl⟩)
        simp [lookupA, hk]
        exact ih h hnd'.2

theorem eraseA_cons {α : Type} (k k₀ : Nat) (v₀ : α) (rest : List (Nat × α)) :
    eraseA k ((k₀, v₀) :: rest) =
      if k₀ = k then eraseA k rest else (k₀, v₀) :: eraseA k rest := by
  by_cases h : k₀ = k <;> simp [eraseA, List.filter_cons, h]

theorem mem_eraseA {α : Type} {e : Nat × α} {k : Nat} {l : List (Nat × α)} :
    e ∈ eraseA k l ↔ e ∈ l ∧ e.1 ≠ k := by
  simp [eraseA, List.mem_filter]

theorem lookupA_eraseA_self {α : Type} (k : Nat) (l : List (Nat × α)) :
    lookupA k (eraseA k l) = none := by
  rw [lookupA_none_iff]
  intro hmem
  obtain ⟨e, he, hfst⟩ := List.mem_map.mp hmem
  exact (mem_eraseA.mp he).2 hfst

theorem lookupA_eraseA_ne {α : Type} {k k' : Nat} (h : k ≠ k')
    (l : List (Nat × α)) : lookupA k (eraseA k' l) = lookupA k l := by
  induction l with
  | nil => rfl
  | cons e rest ih =>
      obtain ⟨k₀, v₀⟩ := e
      rw [eraseA_cons]
      by_cases h0 : k₀ = k'
      · subst h0
        have hk : k₀ ≠ k := fun hh => h (hh ▸ rfl)
        simp [lookupA, hk, ih]
      · simp [lookupA, h0, ih]

theorem eraseA_of_lookupA_none {α : Type} {k : Nat} {l : List (Nat × α)}
    (h : lookupA k l = none) : eraseA k l = l := by
  induction l with
  | nil => rfl
  | cons e rest ih =>
      obtain ⟨k₀, v₀⟩ := e
      rw [eraseA_cons]
      by_cases h0 : k₀ = k
      · subst h0; simp [lookupA] at h
      · simp [lookupA, h0] at h
        simp [h0, ih h]

theorem eraseA_idem {α : Type} (k : Nat) (l : List (Nat × α)) :
    eraseA k (eraseA k l) = eraseA k l :=
  eraseA_of_lookupA_none (lookupA_eraseA_self k l)

theorem keysNodup_eraseA {α : Type} (k : Nat) {l : List (Nat × α)}
    (hnd : keysNodup l) : keysNodup (eraseA k l) :=
  List.Nodup.sublist (List.Sublist.map Prod.fst (List.filter_sublist l)) hnd

theorem mem_setA {α : Type} {e : Nat × α} {k : Nat} {v : α} {l : List (Nat × α)}
    (h : e ∈ setA k v l) : e = (k, v) ∨ e ∈ l := by
  induction l with
  | nil => simpa [setA] using h
  | cons e₀ rest ih =>
      obtain ⟨k₀, v₀⟩ := e₀
      by_cases h0 : k₀ = k
      · subst h0
        rcases List.mem_cons.mp (by simpa [setA] using h) with h1 | h1
        · exact Or.inl h1
        · exact Or.inr (List.mem_cons_of_mem _ h1)
      · rcases List.mem_cons.mp (by simpa [setA, h0] using h) with h1 | h1
        · exact Or.inr (h1 ▸ List.mem_cons_self _ _)
        · rcases ih h1 with h2 | h2
          · exact Or.inl h2
          · exact Or.inr (List.mem_cons_of_mem _ h2)

theorem keys_setA_subset {α : Type} {a k : Nat} (v : α) (l : List (Nat × α))
    (h : a ∈ (setA k v l).map Prod.fst) : a = k ∨ a ∈ l.map Prod.fst := by
  obtain ⟨e, he, hfst⟩ := List.mem_map.mp h
  rcases mem_setA he with h1 | h1
  · subst h1
    exact Or.inl hfst.symm
  · exact Or.inr (List.mem_map.mpr ⟨e, h1, hfst⟩)

theorem keysNodup_setA {α : Type} (k : Nat) (v : α) {l : List (Nat × α)}
    (hnd : keysNodup l) : keysNodup (setA k v l) := by
  induction l with
  | nil => simp [setA, keysNodup]
  | cons e rest ih =>
      obtain ⟨k₀, v₀⟩ := e
      have hnd' : k₀ ∉ rest.map Prod.fst ∧ keysNodup rest := by
        simpa [keysNodup, List.nodup_cons] using hnd
      by_cases h0 : k₀ = k
      · subst h0
        have : setA k₀ v ((k₀, v₀) :: rest) = (k₀, v) :: rest := by simp [setA]
        rw [this]
        simpa [keysNodup, List.nodup_cons] using hnd'
      · have hset : setA k v ((k₀, v₀) :: rest) = (k₀, v₀) :: setA k v rest := by
          simp [setA, h0]
        rw [hset]
        have hrest := ih hnd'.2
        have hnotin : k₀ ∉ (setA k v rest).map Prod.fst := by
          intro hmem
          rcases keys_setA_subset v rest hmem with h1 | h1
          · exact h0 h1
          · exact hnd'.1 h1
        simpa [keysNodup, List.nodup_cons, hnotin] using hrest

theorem length_eraseA {α : Type} {k : Nat} {v : α} {l : List (Nat × α)}
    (h : lookupA k l = some v) (hnd : keysNodup l) :
    (eraseA k l).length + 1 = l.length := by
  induction l with
  | nil => simp [lookupA] at h
  | cons e rest ih =>
      obtain ⟨k₀, v₀⟩ := e
      have hnd' : k₀ ∉ rest.map Prod.fst ∧ keysNodup rest := by
        simpa [keysNodup, List.nodup_cons] using hnd
      rw [eraseA_cons]
      by_cases h0 : k₀ = k
      · subst h0
        have hrest : lookupA k₀ rest = none := (lookupA_none_iff k₀ rest).mpr hnd'.1
        simp [eraseA_of_lookupA_none hrest]
      · simp [lookupA, h0] at h
        have := ih h hnd'.2
        simp [h0]
        omega

theorem lookupA_mapVal {α β : Type} (f : Nat → α → β) (k : Nat)
    (l : List (Nat × α)) :
    lookupA k (l.map (fun e => (e.1, f e.1 e.2))) = (lookupA k l).map (f k) := by
  induction l with
  | nil => rfl
  | cons e rest ih =>
      obtain ⟨k₀, v₀⟩ := e
      by_cases h0 : k₀ = k
      · subst h0; simp [lookupA]
      · simp [lookupA, h0, ih]

/-! ### Effect lemmas for the TLS operations -/

theorem optionMap_eraseA_idem {α : Type} (t : Nat) (o : Option (List (Nat × α))) :
    Option.map (eraseA t) (Option.map (eraseA t) o) = Option.map (eraseA t) o := by
  cases o <;> simp [eraseA_idem]

theorem optionMap_eraseA_comp {α : Type} (t : Nat) (o : Option (List (Nat × α))) :
    Option.map (eraseA t ∘ eraseA t) o = Option.map (eraseA t) o := by
  cases o <;> simp [eraseA_idem, Function.comp]

theorem detachThread_backSet (d : DescId) (t : ThreadId) (s : TLSState) :
    (detachThread d t s).backSet = s.backSet := by
  cases h1 : lookupA d s.descMap with
  | none => simp [detachThread, h1]
  | some m =>
      cases h2 : lookupA t m with
      | none => simp [detachThread, h1, h2]
      | some p => simp [detachThread, h1, h2]

theorem detachThread_descMap_lookup (d d' : DescId) (t : ThreadId) (s : TLSState) :
    lookupA d' (detachThread d t s).descMap =
      if d' = d then Option.map (eraseA t) (lookupA d s.descMap)
      else lookupA d' s.descMap := by
  cases h1 : lookupA d s.descMap with
  | none => by_cases hd : d' = d <;> simp [detachThread, h1, hd]
  | some m =>
      cases h2 : lookupA t m with
      | none =>
          by_cases hd : d' = d
          · subst hd
            simp [detachThread, h1, h2, eraseA_of_lookupA_none h2]
          · simp [detachThread, h1, h2, hd]
      | some p =>
          by_cases hd : d' = d
          · subst hd
            simp [detachThread, h1, h2, lookupA_setA_self]
          · simp [detachThread, h1, h2, hd, lookupA_setA_ne hd]

theorem detachAll_cons (t : ThreadId) (d : DescId) (rest : List DescId)
    (s : TLSState) :
    detachAll t (d :: rest) s = detachAll t rest (detachThread d t s) := rfl

theorem detachAll_backSet (t : ThreadId) (ds : List DescId) (s : TLSState) :
    (detachAll t ds s).backSet = s.backSet := by
  induction ds generalizing s with
  | nil => rfl
  | cons d rest ih => rw [detachAll_cons, ih, detachThread_backSet]

theorem detachAll_descMap_lookup (t : ThreadId) (ds : List DescId)
    (s : TLSState) (d : DescId) :
    lookupA d (detachAll t ds s).descMap =
      if d ∈ ds then Option.map (eraseA t) (lookupA d s.descMap)
      else lookupA d s.descMap := by
  induction ds generalizing s with
  | nil => simp [detachAll]
  | cons d₀ rest ih =>
      rw [detachAll_cons, ih, detachThread_descMap_lookup]
      by_cases hmem : d ∈ rest
      · by_cases hd : d = d₀
        · subst hd
          simp [hmem, optionMap_eraseA_idem, optionMap_eraseA_comp]
        · simp [hmem, hd]
      · by_cases hd : d = d₀
        · subst hd
          simp [hmem]
        · simp [hmem, hd]

theorem lookupA_removeFromBackSets (d : DescId) (m : List (ThreadId × Payload))
    (bsl : List (ThreadId × List DescId)) (t : ThreadId) :
    lookupA t (removeFromBackSets d m bsl) =
      Option.map (pruneBS d m t) (lookupA t bsl) :=
  lookupA_mapVal (pruneBS d m) t bsl

theorem keys_removeFromBackSets (d : DescId) (m : List (ThreadId × Payload))
    (bsl : List (ThreadId × List DescId)) :
    (removeFromBackSets d m bsl).map Prod.fst = bsl.map Prod.fst := by
  induction bsl with
  | nil => rfl
  | cons e rest ih => simp [removeFromBackSets]

theorem mem_pruneBS {d x : DescId} {m : List (ThreadId × Payload)}
    {t : ThreadId} {bs : List DescId} (h : x ∈ pruneBS d m t bs) : x ∈ bs := by
  unfold pruneBS at h
  by_cases hm : (lookupA t m).isSome
  · simp [hm, List.mem_filter] at h
    exact h.1
  · simpa [hm] using h

theorem descInBackSet_eq_true (s : TLSState) (t : ThreadId) (d : DescId) :
    descInBackSet s t d = true ↔
      ∃ bs, lookupA t s.backSet = some bs ∧ d ∈ bs := by
  unfold descInBackSet
  cases h : lookupA t s.backSet <;> simp

theorem threadInDescMap_eq_true (s : TLSState) (d : DescId) (t : ThreadId) :
    threadInDescMap s d t = true ↔
      ∃ m, lookupA d s.descMap = some m ∧ (lookupA t m).isSome := by
  unfold threadInDescMap
  cases h : lookupA d s.descMap <;> simp

/-! ### Preservation of the bidirectional consistency invariant -/

theorem inv_newDescriptor (d : DescId) (s : TLSState) (hInv : Inv s) :
    Inv (newDescriptor d s) := by
  by_cases h : (lookupA d s.descMap).isSome
  · simpa [newDescriptor, h] using hInv
  · have hnone : lookupA d s.descMap = none := by
      cases hh : lookupA d s.descMap
      · rfl
      · rw [hh] at h; simp at h
    have hkey : d ∉ s.descMap.map Prod.fst := (lookupA_none_iff d s.descMap).mp hnone
    obtain ⟨⟨n1, n2, n3, n4⟩, hfwd, hbwd⟩ := hInv
    have hstate : newDescriptor d s = { s with descMap := (d, []) :: s.descMap } := by
      simp [newDescriptor, h]
    rw [hstate]
    refine ⟨⟨?_, n2, ?_, n4⟩, ?_, ?_⟩
    · simpa [keysNodup, List.nodup_cons, hkey] using n1
    · intro e he
      rcases List.mem_cons.mp he with h1 | h1
      · subst h1; simp [keysNodup]
      · exact n3 e h1
    · intro e he tp htp
      rcases List.mem_cons.mp he with h1 | h1
      · subst h1; simp at htp
      · have := hfwd e h1 tp htp
        simpa [descInBackSet] using this
    · intro e he d₁ hd₁
      have hb := hbwd e he d₁ hd₁
      rw [threadInDescMap_eq_true] at hb
      rw [threadInDescMap_eq_true]
      obtain ⟨m₁, hm₁, hsome⟩ := hb
      have hne : d ≠ d₁ := by
        intro hh
        subst hh
        exact hkey (List.mem_map.mpr ⟨(d, m₁), lookupA_mem hm₁, rfl⟩)
      exact ⟨m₁, by simpa [lookupA, hne] using hm₁, hsome⟩

theorem inv_newThreadBlock (t : ThreadId) (s : TLSState) (hInv : Inv s) :
    Inv (newThreadBlock t s) := by
  by_cases h : (lookupA t s.backSet).isSome
  · simpa [newThreadBlock, h] using hInv
  · have hnone : lookupA t s.backSet = none := by
      cases hh : lookupA t s.backSet
      · rfl
      · rw [hh] at h; simp at h
    have hkey : t ∉ s.backSet.map Prod.fst := (lookupA_none_iff t s.backSet).mp hnone
    obtain ⟨⟨n1, n2, n3, n4⟩, hfwd, hbwd⟩ := hInv
    have hstate : newThreadBlock t s = { s with backSet := (t, []) :: s.backSet } := by
      simp [newThreadBlock, h]
    rw [hstate]
    refine ⟨⟨n1, ?_, n3, ?_⟩, ?_, ?_⟩
    · simpa [keysNodup, List.nodup_cons, hkey] using n2
    · intro e he
      rcases List.mem_cons.mp he with h1 | h1
      · subst h1; simp
      · exact n4 e h1
    · intro e he tp htp
      have hf := hfwd e he tp htp
      rw [descInBackSet_eq_true] at hf
      rw [descInBackSet_eq_true]
      obtain ⟨bs, hbs, hmem⟩ := hf
      have hne : t ≠ tp.1 := by
        intro hh
        subst hh
        exact hkey (List.mem_map.mpr ⟨(tp.1, bs), lookupA_mem hbs, rfl⟩)
      exact ⟨bs, by simpa [lookupA, hne] using hbs, hmem⟩
    · intro e he d₁ hd₁
      rcases List.mem_cons.mp he with h1 | h1
      · subst h1; simp at hd₁
      · have := hbwd e h1 d₁ hd₁
        simpa [threadInDescMap] using this

theorem inv_getOrCreate (d : DescId) (t : ThreadId) (s : TLSState)
    (p : Payload) (s' : TLSState) (hInv : Inv s)
    (hg : getOrCreate d t s = some (p, s')) : Inv s' := by
  obtain ⟨⟨n1, n2, n3, n4⟩, hfwd, hbwd⟩ := hInv
  cases h1 : lookupA d s.descMap with
  | none => simp [getOrCreate, h1] at hg
  | some m =>
      cases h2 : lookupA t m with
      | some q =>
          simp [getOrCreate, h1, h2] at hg
          obtain ⟨hp, hs⟩ := hg
          subst hs
          exact ⟨⟨n1, n2, n3, n4⟩, hfwd, hbwd⟩
      | none =>
          simp [getOrCreate, h1, h2] at hg
          obtain ⟨hp, hs⟩ := hg
          subst hs
          refine ⟨⟨keysNodup_setA d _ n1, keysNodup_setA t _ n2, ?_, ?_⟩, ?_, ?_⟩
          · intro e he
            rcases mem_setA he with h3 | h3
            · subst h3
              exact keysNodup_setA t _ (n3 (d, m) (lookupA_mem h1))
            · exact n3 e h3
          · intro e he
            rcases mem_setA he with h3 | h3
            · subst h3
              cases hbs : lookupA t s.backSet with
              | none => simp [hbs]
              | some bs =>
                  have hbsnd : bs.Nodup := n4 (t, bs) (lookupA_mem hbs)
                  have hdnotin : d ∉ bs := by
                    intro hd
                    have hb := hbwd (t, bs) (lookupA_mem hbs) d hd
                    rw [threadInDescMap_eq_true] at hb
                    obtain ⟨m₁, hm₁, hsome⟩ := hb
                    rw [h1] at hm₁
                    injection hm₁ with hm₁
                    subst hm₁
                    rw [h2] at hsome
                    simp at hsome
                  simpa [hbs] using ⟨hdnotin, hbsnd⟩
            · exact n4 e h3
          · intro e he tp htp
            rw [descInBackSet_eq_true]
            rcases mem_setA he with h3 | h3
            · rw [h3] at htp
              rcases mem_setA htp with h4 | h4
              · refine ⟨d :: (lookupA t s.backSet).getD [], ?_, ?_⟩
                · rw [h4]
                  exact lookupA_setA_self t _ s.backSet
                · rw [h3]
                  exact List.mem_cons_self _ _
              · have hf := hfwd (d, m) (lookupA_mem h1) tp h4
                rw [descInBackSet_eq_true] at hf
                obtain ⟨bs₁, hbs₁, hmem₁⟩ := hf
                by_cases ht : t = tp.1
                · refine ⟨d :: (lookupA t s.backSet).getD [], ?_, ?_⟩
                  · rw [← ht]
                    exact lookupA_setA_self t _ s.backSet
                  · rw [h3]
                    exact List.mem_cons_self _ _
                · refine ⟨bs₁, ?_, ?_⟩
                  · rw [lookupA_setA_ne (fun hh => ht hh.symm)]
                    exact hbs₁
                  · rw [h3]
                    exact hmem₁
            · have hf := hfwd e h3 tp htp
              rw [descInBackSet_eq_true] at hf
              obtain ⟨bs₁, hbs₁, hmem₁⟩ := hf
              by_cases ht : t = tp.1
              · rw [← ht] at hbs₁
                refine ⟨d :: (lookupA t s.backSet).getD [], ?_, ?_⟩
                · rw [← ht]
                  exact lookupA_setA_self t _ s.backSet
                · rw [hbs₁]
                  exact List.mem_cons_of_mem _ hmem₁
              · refine ⟨bs₁, ?_, hmem₁⟩
                rw [lookupA_setA_ne (fun hh => ht hh.symm)]
                exact hbs₁
          · intro e he d₁ hd₁
            rw [threadInDescMap_eq_true]
            have he1 : e ∈ setA t (d :: (lookupA t s.backSet).getD []) s.backSet := he
            rcases mem_setA he1 with h3 | h3
            · rw [h3] at hd₁
              rcases List.mem_cons.mp hd₁ with h4 | h4
              · refine ⟨setA t s.nextPayload m, ?_, ?_⟩
                · rw [h4]
                  exact lookupA_setA_self d _ s.descMap
                · have he2 : e.1 = t := by rw [h3]
                  rw [he2, lookupA_setA_self]
                  simp
              · cases hbs : lookupA t s.backSet with
                | none => rw [hbs] at h4; simp at h4
                | some bs =>
                    rw [hbs] at h4
                    simp at h4
                    have hb := hbwd (t, bs) (lookupA_mem hbs) d₁ h4
                    rw [threadInDescMap_eq_true] at hb
                    obtain ⟨m₁, hm₁, hsome₁⟩ := hb
                    have hdd : d₁ ≠ d := by
                      intro hh
                      rw [hh, h1] at hm₁
                      injection hm₁ with hm₁
                      rw [← hm₁, h2] at hsome₁
                      simp at hsome₁
                    refine ⟨m₁, ?_, ?_⟩
                    · rw [lookupA_setA_ne hdd]
                      exact hm₁
                    · have he2 : e.1 = t := by rw [h3]
                      rw [he2]
                      exact hsome₁
            · have hb := hbwd e h3 d₁ hd₁
              rw [threadInDescMap_eq_true] at hb
              obtain ⟨m₁, hm₁, hsome₁⟩ := hb
              by_cases hdd : d₁ = d
              · rw [hdd, h1] at hm₁
                injection hm₁ with hm₁
                subst hm₁
                have het : e.1 ≠ t := by
                  intro hh
                  rw [hh, h2] at hsome₁
                  simp at hsome₁
                refine ⟨setA t s.nextPayload m, ?_, ?_⟩
                · rw [hdd]
                  exact lookupA_setA_self d _ s.descMap
                · rw [lookupA_setA_ne het]
                  exact hsome₁
              · refine ⟨m₁, ?_, hsome₁⟩
                rw [lookupA_setA_ne hdd]
                exact hm₁

theorem inv_storageDestroyed (d : DescId) (s : TLSState) (hInv : Inv s) :
    Inv (storageDestroyed d s) := by
  obtain ⟨⟨n1, n2, n3, n4⟩, hfwd, hbwd⟩ := hInv
  cases h1 : lookupA d s.descMap with
  | none =>
      have hid : storageDestroyed d s = s := by simp [storageDestroyed, h1]
      rw [hid]
      exact ⟨⟨n1, n2, n3, n4⟩, hfwd, hbwd⟩
  | some m =>
      have hdesc : (storageDestroyed d s).descMap = eraseA d s.descMap := by
        simp [storageDestroyed, h1]
      have hback : (storageDestroyed d s).backSet = removeFromBackSets d m s.backSet := by
        simp [storageDestroyed, h1]
      refine ⟨⟨?_, ?_, ?_, ?_⟩, ?_, ?_⟩
      · rw [hdesc]
        exact keysNodup_eraseA d n1
      · show (((storageDestroyed d s).backSet).map Prod.fst).Nodup
        rw [hback, keys_removeFromBackSets]
        exact n2
      · intro e he
        rw [hdesc] at he
        exact n3 e (mem_eraseA.mp he).1
      · intro e he
        rw [hback] at he
        obtain ⟨e₀, he₀, heq⟩ := List.mem_map.mp he
        rw [← heq]
        unfold pruneBS
        by_cases hm : (lookupA e₀.1 m).isSome
        · rw [if_pos hm]
          exact List.Nodup.filter _ (n4 e₀ he₀)
        · rw [if_neg hm]
          exact n4 e₀ he₀
      · intro e he tp htp
        rw [hdesc] at he
        have hmem := mem_eraseA.mp he
        have hf := hfwd e hmem.1 tp htp
        rw [descInBackSet_eq_true] at hf
        obtain ⟨bs₁, hbs₁, hmem₁⟩ := hf
        rw [descInBackSet_eq_true, hback]
        refine ⟨pruneBS d m tp.1 bs₁, ?_, ?_⟩
        · rw [lookupA_removeFromBackSets, hbs₁]
          rfl
        · unfold pruneBS
          by_cases hm : (lookupA tp.1 m).isSome
          · rw [if_pos hm, List.mem_filter]
            refine ⟨hmem₁, ?_⟩
            simpa using hmem.2
          · rw [if_neg hm]
            exact hmem₁
      · intro e he d₁ hd₁
        rw [hback] at he
        obtain ⟨e₀, he₀, heq⟩ := List.mem_map.mp he
        have hd₁' : d₁ ∈ pruneBS d m e₀.1 e₀.2 := by
          rw [← heq] at hd₁
          exact hd₁
        have hmem₀ : d₁ ∈ e₀.2 := mem_pruneBS hd₁'
        have hb := hbwd e₀ he₀ d₁ hmem₀
        rw [threadInDescMap_eq_true] at hb
        obtain ⟨m₁, hm₁, hsome₁⟩ := hb
        have hdd : d₁ ≠ d := by
          intro hh
          by_cases hm : (lookupA e₀.1 m).isSome
          · unfold pruneBS at hd₁'
            rw [if_pos hm] at hd₁'
            rw [hh] at hd₁'
            simp [List.mem_filter] at hd₁'
          · rw [hh, h1] at hm₁
            injection hm₁ with hm₁
            rw [← hm₁] at hsome₁
            exact hm hsome₁
        rw [threadInDescMap_eq_true]
        refine ⟨m₁, ?_, ?_⟩
        · rw [hdesc, lookupA_eraseA_ne hdd]
          exact hm₁
        · have he1 : e.1 = e₀.1 := by rw [← heq]
          rw [he1]
          exact hsome₁

theorem nodup_detachThread (d : DescId) (t : ThreadId) (s : TLSState)
    (h : NodupState s) : NodupState (detachThread d t s) := by
  obtain ⟨n1, n2, n3, n4⟩ := h
  cases h1 : lookupA d s.descMap with
  | none =>
      have hid : detachThread d t s = s := by simp [detachThread, h1]
      rw [hid]
      exact ⟨n1, n2, n3, n4⟩
  | some m =>
      cases h2 : lookupA t m with
      | none =>
          have hid : detachThread d t s = s := by simp [detachThread, h1, h2]
          rw [hid]
          exact ⟨n1, n2, n3, n4⟩
      | some p =>
          have hdesc : (detachThread d t s).descMap = setA d (eraseA t m) s.descMap := by
            simp [detachThread, h1, h2]
          have hback := detachThread_backSet d t s
          refine ⟨?_, ?_, ?_, ?_⟩
          · rw [hdesc]
            exact keysNodup_setA d _ n1
          · rw [hback]
            exact n2
          · intro e he
            rw [hdesc] at he
            rcases mem_setA he with h3 | h3
            · rw [h3]
              exact keysNodup_eraseA t (n3 (d, m) (lookupA_mem h1))
            · exact n3 e h3
          · intro e he
            rw [hback] at he
            exact n4 e he

theorem nodup_detachAll (t : ThreadId) (ds : List DescId) (s : TLSState)
    (h : NodupState s) : NodupState (detachAll t ds s) := by
  induction ds generalizing s with
  | nil => exact h
  | cons d rest ih =>
      rw [detachAll_cons]
      exact ih _ (nodup_detachThread d t s h)

theorem threadTerminated_backSet (t : ThreadId) (s : TLSState) :
    (threadTerminated t s).backSet = eraseA t s.backSet := by
  simp [threadTerminated, detachAll_backSet]

theorem threadTerminated_descMap_lookup (t : ThreadId) (s : TLSState) (d : DescId) :
    lookupA d (threadTerminated t s).descMap =
      if d ∈ (lookupA t s.backSet).getD [] then
        Option.map (eraseA t) (lookupA d s.descMap)
      else lookupA d s.descMap := by
  have hd : (threadTerminated t s).descMap =
      (detachAll t ((lookupA t s.backSet).getD []) s).descMap := by
    simp [threadTerminated]
  rw [hd, detachAll_descMap_lookup]

theorem inv_threadTerminated (t : ThreadId) (s : TLSState) (hInv : Inv s) :
    Inv (threadTerminated t s) := by
  obtain ⟨⟨n1, n2, n3, n4⟩, hfwd, hbwd⟩ := hInv
  have hnods1 := nodup_detachAll t ((lookupA t s.backSet).getD []) s ⟨n1, n2, n3, n4⟩
  have hdesceq : (threadTerminated t s).descMap =
      (detachAll t ((lookupA t s.backSet).getD []) s).descMap := by
    simp [threadTerminated]
  have hback := threadTerminated_backSet t s
  refine ⟨⟨?_, ?_, ?_, ?_⟩, ?_, ?_⟩
  · rw [hdesceq]
    exact hnods1.1
  · show (((threadTerminated t s).backSet).map Prod.fst).Nodup
    rw [hback]
    exact keysNodup_eraseA t n2
  · intro e he
    rw [hdesceq] at he
    exact hnods1.2.2.1 e he
  · intro e he
    rw [hback] at he
    exact n4 e (mem_eraseA.mp he).1
  · intro e he tp htp
    rw [hdesceq] at he
    have hlook : lookupA e.1 (detachAll t ((lookupA t s.backSet).getD []) s).descMap
        = some e.2 := mem_lookupA he hnods1.1
    rw [detachAll_descMap_lookup] at hlook
    rw [descInBackSet_eq_true, hback]
    by_cases hd : e.1 ∈ (lookupA t s.backSet).getD []
    · rw [if_pos hd] at hlook
      cases hm₀ : lookupA e.1 s.descMap with
      | none => rw [hm₀] at hlook; simp at hlook
      | some m₀ =>
          rw [hm₀] at hlook
          simp at hlook
          rw [← hlook] at htp
          have htp' := mem_eraseA.mp htp
          have hf := hfwd (e.1, m₀) (lookupA_mem hm₀) tp htp'.1
          rw [descInBackSet_eq_true] at hf
          obtain ⟨bs₁, hbs₁, hmem₁⟩ := hf
          refine ⟨bs₁, ?_, hmem₁⟩
          rw [lookupA_eraseA_ne htp'.2]
          exact hbs₁
    · rw [if_neg hd] at hlook
      have hf := hfwd (e.1, e.2) (lookupA_mem hlook) tp htp
      rw [descInBackSet_eq_true] at hf
      obtain ⟨bs₁, hbs₁, hmem₁⟩ := hf
      have htne : tp.1 ≠ t := by
        intro hh
        rw [hh] at hbs₁
        rw [hbs₁] at hd
        simp at hd
        exact hd hmem₁
      refine ⟨bs₁, ?_, hmem₁⟩
      rw [lookupA_eraseA_ne htne]
      exact hbs₁
  · intro e he d₁ hd₁
    rw [hback] at he
    have hmem := mem_eraseA.mp he
    have hb := hbwd e hmem.1 d₁ hd₁
    rw [threadInDescMap_eq_true] at hb
    obtain ⟨m₁, hm₁, hsome₁⟩ := hb
    rw [threadInDescMap_eq_true]
    by_cases hd : d₁ ∈ (lookupA t s.backSet).getD []
    · refine ⟨eraseA t m₁, ?_, ?_⟩
      · rw [threadTerminated_descMap_lookup, if_pos hd, hm₁]
        rfl
      · rw [lookupA_eraseA_ne hmem.2]
        exact hsome₁
    · refine ⟨m₁, ?_, hsome₁⟩
      rw [threadTerminated_descMap_lookup, if_neg hd]
      exact hm₁

/-! ## Claim theorems -/

/-- C1: for every sequence of suspend/resume calls on a thread created
through this subsystem, the thread is running iff the net suspend counter
is at most 0; the counter starts at 1 at creation and moves by plus one per
suspend and minus one per resume; `IsSuspended` is the exact complement of
running. -/
theorem C1_running_iff_counter_nonpositive (ops : List Bool) :
    createThread.suspendCount = 1 ∧
      (isRunning (applySuspendOps createThread ops) = true ↔
        (applySuspendOps createThread ops).suspendCount ≤ 0) ∧
      (isSuspended (applySuspendOps createThread ops) = true ↔
        ¬ isRunning (applySuspendOps createThread ops) = true) ∧
      (applySuspendOps createThread ops).suspendCount =
        1 + (ops.count true : Int) - (ops.count false : Int) := by
  obtain ⟨h1, h2, h3⟩ := applySuspendOps_invariant ops createThread
    (by decide) (by decide)
  refine ⟨rfl, h2, ?_, by simpa [createThread] using h3⟩
  rw [h2]
  simp [isSuspended]

/-- C2 counterexample: the claim "no operation ever transitions a thread
out of `Terminated`" is false at a terminated thread and the `Restart`
operation, which restarts a terminated thread. -/
theorem C2_restart_leaves_terminated :
    (threadStep { state := LifeState.Terminated, suspendCount := 0 }
        ThreadOp.restartOp).state ≠ LifeState.Terminated := by
  decide

/-- C2 (amended): `Terminated` is terminal for every lifecycle operation
except `Restart`: suspend, resume and terminate never move a thread out of
the `Terminated` state. -/
theorem C2_terminated_terminal_except_restart (th : ThreadA) (op : ThreadOp)
    (hterm : th.state = LifeState.Terminated) (hop : op ≠ ThreadOp.restartOp) :
    (threadStep th op).state = LifeState.Terminated := by
  cases op <;> simp [threadStep, hterm] at hop ⊢

/-- Witness for C2 at a concrete terminated thread and the suspend
operation. -/
theorem C2_terminated_terminal_witness :
    ({ state := LifeState.Terminated, suspendCount := 0 } : ThreadA).state =
        LifeState.Terminated ∧
      ThreadOp.suspendOp ≠ ThreadOp.restartOp ∧
      (threadStep { state := LifeState.Terminated, suspendCount := 0 }
          ThreadOp.suspendOp).state = LifeState.Terminated :=
  ⟨rfl, by decide, C2_terminated_terminal_except_restart _ _ rfl (by decide)⟩

/-- C3: on a live thread, `Resume` decrements the suspend counter by
exactly one — no clamping at zero — so an over-resume is balanced by a
later extra suspend, restoring the original counter. -/
theorem C3_resume_decrements (th : ThreadA)
    (hterm : th.state ≠ LifeState.Terminated) :
    (threadStep th ThreadOp.resumeOp).suspendCount = th.suspendCount - 1 ∧
      (threadStep (threadStep th ThreadOp.resumeOp) ThreadOp.suspendOp).suspendCount =
        th.suspendCount := by
  have h1 : (threadStep th ThreadOp.resumeOp).suspendCount = th.suspendCount - 1 := by
    simp [threadStep, hterm]
  have hterm2 : (threadStep th ThreadOp.resumeOp).state ≠ LifeState.Terminated := by
    simp only [threadStep, if_neg hterm]
    by_cases hc : 0 < th.suspendCount - 1 <;>
      by_cases hcr : th.state = LifeState.Created <;> simp [hc, hcr]
  have h2 : ∀ th2 : ThreadA, th2.state ≠ LifeState.Terminated →
      (threadStep th2 ThreadOp.suspendOp).suspendCount = th2.suspendCount + 1 := by
    intro th2 ht2
    simp [threadStep, ht2]
  refine ⟨h1, ?_⟩
  rw [h2 _ hterm2, h1]
  omega

/-- Witness for C3 at a freshly created thread (counter 1, then 0, back
to 1). -/
theorem C3_resume_decrements_witness :
    createThread.state ≠ LifeState.Terminated ∧
      ((threadStep createThread ThreadOp.resumeOp).suspendCount =
          createThread.suspendCount - 1 ∧
        (threadStep (threadStep createThread ThreadOp.resumeOp)
            ThreadOp.suspendOp).suspendCount = createThread.suspendCount) :=
  ⟨by decide, C3_resume_decrements createThread (by decide)⟩

/-- C4: `detachThread` is idempotent — detaching the same (descriptor,
thread) pair twice yields exactly the state after detaching it once, in
the mapping and in the deallocation record alike. -/
theorem C4_detachThread_idempotent (d : DescId) (t : ThreadId) (s : TLSState) :
    detachThread d t (detachThread d t s) = detachThread d t s := by
  cases h1 : lookupA d s.descMap with
  | none =>
      have hid : detachThread d t s = s := by simp [detachThread, h1]
      rw [hid, hid]
  | some m =>
      cases h2 : lookupA t m with
      | none =>
          have hid : detachThread d t s = s := by simp [detachThread, h1, h2]
          rw [hid, hid]
      | some p =>
          have hst : detachThread d t s =
              { s with descMap := setA d (eraseA t m) s.descMap
                     , freed := p :: s.freed } := by
            simp [detachThread, h1, h2]
          rw [hst]
          simp [detachThread, lookupA_setA_self, lookupA_eraseA_self]

/-- C5: `WaitForTermination` always returns a boolean and never an error:
the result is `true` exactly when the target thread terminated within the
wait window and `false` exactly when the window elapsed first. -/
theorem C5_waitForTermination_total_boolean (tt : Option Nat) (w : Nat) :
    (waitForTermination tt w = true ↔ ∃ time, tt = some time ∧ time ≤ w) ∧
      (waitForTermination tt w = false ↔ ∀ time, tt = some time → w < time) := by
  cases tt with
  | none => simp [waitForTermination]
  | some time =>
      by_cases h : time ≤ w
      · constructor
        · simp [waitForTermination, h]
        · simp [waitForTermination, h]
      · constructor
        · simp [waitForTermination, h]
        · simp [waitForTermination, h]
          omega

/-- C10: destroying a `PThread` object that has not terminated invokes
`Terminate()`: the thread ends in the `Terminated` state and destruction is
never a silent no-op on a live thread. -/
theorem C10_destructor_terminates (th : ThreadA)
    (h : th.state ≠ LifeState.Terminated) :
    (pthreadDestructor th).state = LifeState.Terminated ∧
      pthreadDestructor th ≠ th := by
  have hs : (pthreadDestructor th).state = LifeState.Terminated := by
    simp [pthreadDestructor, threadStep]
  refine ⟨hs, fun heq => h ?_⟩
  rw [← heq]
  exact hs

/-- Witness for C10 at a freshly created (still suspended, live) thread. -/
theorem C10_destructor_terminates_witness :
    createThread.state ≠ LifeState.Terminated ∧
      ((pthreadDestructor createThread).state = LifeState.Terminated ∧
        pthreadDestructor createThread ≠ createThread) :=
  ⟨by decide, C10_destructor_terminates createThread (by decide)⟩

/-- C6: destroying a storage descriptor that holds entries for N threads
(one map entry per thread, keys unique) deallocates exactly those N
payloads, removes the descriptor, leaves no surviving thread's backward set
referencing it, and keeps the set of registered threads unchanged. -/
theorem C6_storageDestroyed_cleanup (d : DescId) (s : TLSState)
    (m : List (ThreadId × Payload)) (hd : lookupA d s.descMap = some m)
    (hInv : Inv s) :
    (storageDestroyed d s).freed = m.map Prod.snd ++ s.freed ∧
      (storageDestroyed d s).freed.length = m.length + s.freed.length ∧
      keysNodup m ∧
      lookupA d (storageDestroyed d s).descMap = none ∧
      (∀ t bs, lookupA t (storageDestroyed d s).backSet = some bs → d ∉ bs) ∧
      (∀ t, lookupA t (storageDestroyed d s).backSet = none ↔
        lookupA t s.backSet = none) := by
  obtain ⟨⟨n1, n2, n3, n4⟩, hfwd, hbwd⟩ := hInv
  have hfreed : (storageDestroyed d s).freed = m.map Prod.snd ++ s.freed := by
    simp [storageDestroyed, hd]
  have hdesc : (storageDestroyed d s).descMap = eraseA d s.descMap := by
    simp [storageDestroyed, hd]
  have hback : (storageDestroyed d s).backSet = removeFromBackSets d m s.backSet := by
    simp [storageDestroyed, hd]
  refine ⟨hfreed, ?_, n3 (d, m) (lookupA_mem hd), ?_, ?_, ?_⟩
  · rw [hfreed]
    simp
  · rw [hdesc]
    exact lookupA_eraseA_self d s.descMap
  · intro t bs hbs
    rw [hback, lookupA_removeFromBackSets] at hbs
    cases hbs0 : lookupA t s.backSet with
    | none => rw [hbs0] at hbs; simp at hbs
    | some bs₀ =>
        rw [hbs0] at hbs
        simp at hbs
        rw [← hbs]
        unfold pruneBS
        by_cases hm : (lookupA t m).isSome
        · rw [if_pos hm]
          intro hmem
          rw [List.mem_filter] at hmem
          simp at hmem
        · rw [if_neg hm]
          intro hmem
          have hb := hbwd (t, bs₀) (lookupA_mem hbs0) d hmem
          rw [threadInDescMap_eq_true] at hb
          obtain ⟨m₁, hm₁, hsome₁⟩ := hb
          rw [hd] at hm₁
          injection hm₁ with hm₁
          rw [← hm₁] at hsome₁
          exact hm hsome₁
  · intro t
    rw [hback]
    constructor
    · intro hnone
      rw [lookupA_none_iff] at hnone ⊢
      rw [keys_removeFromBackSets] at hnone
      exact hnone
    · intro hnone
      rw [lookupA_none_iff] at hnone ⊢
      rw [keys_removeFromBackSets]
      exact hnone

/-- Witness for C6: destroying descriptor 0 of the sample state frees the
two payloads of threads 1 and 2 and clears their backward references. -/
theorem C6_storageDestroyed_cleanup_witness :
    lookupA 0 sampleState.descMap = some [(1, 10), (2, 11)] ∧
      Inv sampleState ∧
      ((storageDestroyed 0 sampleState).freed =
          List.map Prod.snd [(1, 10), (2, 11)] ++ sampleState.freed ∧
        (storageDestroyed 0 sampleState).freed.length =
          List.length [(1, 10), (2, 11)] + sampleState.freed.length ∧
        keysNodup [(1, 10), (2, 11)] ∧
        lookupA 0 (storageDestroyed 0 sampleState).descMap = none ∧
        (∀ t bs, lookupA t (storageDestroyed 0 sampleState).backSet = some bs →
          0 ∉ bs) ∧
        (∀ t, lookupA t (storageDestroyed 0 sampleState).backSet = none ↔
          lookupA t sampleState.backSet = none)) :=
  ⟨by decide, by unfold Inv NodupState keysNodup; decide,
    C6_storageDestroyed_cleanup 0 sampleState [(1, 10), (2, 11)] (by decide)
      (by unfold Inv NodupState keysNodup; decide)⟩

/-- C7: terminating a thread that holds entries in M storage descriptors
detaches it from exactly those M descriptors — each one's map loses exactly
the entry for that thread — clears the thread's backward set and removes
the thread from the registry, leaving all other descriptors untouched. -/
theorem C7_threadTerminated_cleanup (t : ThreadId) (s : TLSState)
    (ds : List DescId) (hbs : lookupA t s.backSet = some ds) (hnd : ds.Nodup)
    (hInv : Inv s) :
    lookupA t (threadTerminated t s).backSet = none ∧
      (∀ d ∈ ds, ∃ m, lookupA d s.descMap = some m ∧
        lookupA d (threadTerminated t s).descMap = some (eraseA t m) ∧
        (eraseA t m).length + 1 = m.length ∧
        lookupA t (eraseA t m) = none) ∧
      (∀ d, d ∉ ds →
        lookupA d (threadTerminated t s).descMap = lookupA d s.descMap) := by
  obtain ⟨⟨n1, n2, n3, n4⟩, hfwd, hbwd⟩ := hInv
  refine ⟨?_, ?_, ?_⟩
  · rw [threadTerminated_backSet]
    exact lookupA_eraseA_self t s.backSet
  · intro d hdm
    have hb := hbwd (t, ds) (lookupA_mem hbs) d hdm
    rw [threadInDescMap_eq_true] at hb
    obtain ⟨m, hm, hsome⟩ := hb
    refine ⟨m, hm, ?_, ?_, lookupA_eraseA_self t m⟩
    · rw [threadTerminated_descMap_lookup, hbs]
      simp [hdm, hm]
    · cases hsome' : lookupA t m with
      | none => rw [hsome'] at hsome; simp at hsome
      | some p => exact length_eraseA hsome' (n3 (d, m) (lookupA_mem hm))
  · intro d hdm
    rw [threadTerminated_descMap_lookup, hbs]
    simp [hdm]

/-- Witness for C7: terminating thread 1 of the sample state removes its
entries from descriptors 0 and 3 and unregisters it. -/
theorem C7_threadTerminated_cleanup_witness :
    lookupA 1 sampleState.backSet = some [0, 3] ∧
      ([0, 3] : List DescId).Nodup ∧
      Inv sampleState ∧
      (lookupA 1 (threadTerminated 1 sampleState).backSet = none ∧
        (∀ d ∈ ([0, 3] : List DescId), ∃ m, lookupA d sampleState.descMap = some m ∧
          lookupA d (threadTerminated 1 sampleState).descMap = some (eraseA 1 m) ∧
          (eraseA 1 m).length + 1 = m.length ∧
          lookupA 1 (eraseA 1 m) = none) ∧
        (∀ d, d ∉ ([0, 3] : List DescId) →
          lookupA d (threadTerminated 1 sampleState).descMap =
            lookupA d sampleState.descMap)) :=
  ⟨by decide, by decide, by unfold Inv NodupState keysNodup; decide,
    C7_threadTerminated_cleanup 1 sampleState [0, 3] (by decide) (by decide)
      (by unfold Inv NodupState keysNodup; decide)⟩

/-- C8: the bidirectional consistency invariant — every thread entry in a
descriptor's map belongs to a live thread whose backward set contains the
descriptor, and every descriptor in a thread's backward set holds an entry
for that thread — is preserved by every TLS operation of the subsystem. -/
theorem C8_bidirectional_consistency (s : TLSState) (op : TLSOp)
    (hInv : Inv s) : Inv (tlsStep s op) := by
  cases op with
  | newDesc d => exact inv_newDescriptor d s hInv
  | newThread t => exact inv_newThreadBlock t s hInv
  | access d t =>
      cases hg : getOrCreate d t s with
      | none => simpa [tlsStep, hg] using hInv
      | some r =>
          obtain ⟨p, s'⟩ := r
          have hi := inv_getOrCreate d t s p s' hInv hg
          simpa [tlsStep, hg] using hi
  | destroyDesc d => exact inv_storageDestroyed d s hInv
  | termThread t => exact inv_threadTerminated t s hInv

/-- Witness for C8: the invariant holds for the sample state and still
holds after thread 1 terminates. -/
theorem C8_bidirectional_consistency_witness :
    Inv sampleState ∧ Inv (tlsStep sampleState (TLSOp.termThread 1)) :=
  ⟨by unfold Inv NodupState keysNodup; decide,
    C8_bidirectional_consistency sampleState (TLSOp.termThread 1)
      (by unfold Inv NodupState keysNodup; decide)⟩

/-- C9: `get()` returns the payload bound to the calling thread: when an
entry exists it is returned unchanged, and on first access a freshly
allocated payload is stored for the thread and every subsequent `get()`
from that thread returns that same payload with no further state change. -/
theorem C9_get_lazy_create (d : DescId) (t : ThreadId) (s : TLSState)
    (m : List (ThreadId × Payload)) (hd : lookupA d s.descMap = some m) :
    (∀ p, lookupA t m = some p → getOrCreate d t s = some (p, s)) ∧
      (lookupA t m = none →
        ∃ s', getOrCreate d t s = some (s.nextPayload, s') ∧
          lookupA d s'.descMap = some (setA t s.nextPayload m) ∧
          getOrCreate d t s' = some (s.nextPayload, s')) := by
  constructor
  · intro p hp
    simp [getOrCreate, hd, hp]
  · intro hnone
    refine ⟨{ descMap := setA d (setA t s.nextPayload m) s.descMap
            , backSet := setA t (d :: (lookupA t s.backSet).getD []) s.backSet
            , freed := s.freed
            , nextPayload := s.nextPayload + 1 }, ?_, ?_, ?_⟩
    · simp [getOrCreate, hd, hnone]
    · exact lookupA_setA_self d _ s.descMap
    · simp [getOrCreate, lookupA_setA_self]

/-- Witness for C9: first access from thread 5 on the empty-slot state
allocates payload 0 and a second access returns the same payload. -/
theorem C9_get_lazy_create_witness :
    lookupA 0 emptySlotState.descMap = some [] ∧
      ((∀ p, lookupA 5 ([] : List (ThreadId × Payload)) = some p →
          getOrCreate 0 5 emptySlotState = some (p, emptySlotState)) ∧
        (lookupA 5 ([] : List (ThreadId × Payload)) = none →
          ∃ s', getOrCreate 0 5 emptySlotState =
              some (emptySlotState.nextPayload, s') ∧
            lookupA 0 s'.descMap = some (setA 5 emptySlotState.nextPayload []) ∧
            getOrCreate 0 5 s' = some (emptySlotState.nextPayload, s'))) :=
  ⟨by decide, C9_get_lazy_create 0 5 emptySlotState [] (by decide)⟩

end PTLib
